import Mathlib

/-!
Verification of the handyXmutter diarization pipeline core
(audio normalization, speech segmentation wrapper, speaker clustering,
chunked transcription, pipeline orchestration), shallowly embedded from
`src-tauri/src/diarize.rs`, `src-tauri/src/commands/meeting.rs` and
`src-tauri/src/commands/video.rs`.

Audio samples (`f32`/`f64` in the source) are modelled as rationals `ℚ`,
so the numeric formulas of the source are embedded exactly; machine
integer casts that truncate toward zero are modelled by `ratTrunc`.
External neural inference capabilities (segmentation, embedding,
transcription models) are parameters of the embedded functions, exactly
as the source treats them as opaque calls that may fail.
-/

set_option autoImplicit false

namespace HandyXmutter

universe u

/-- Truncation of a rational toward zero, the behavior of Rust `as usize` /
`as i64` casts on a float value in range. -/
def ratTrunc (q : ℚ) : Int :=
  if 0 ≤ q then q.floor else q.ceil

/-- Rust `slice::chunks(n)`: consecutive non-overlapping chunks of size `n`,
the final chunk possibly shorter, no empty chunks.  The `n = 0` case is
unreachable in every use site (Rust panics there); we return `[xs]`. -/
def chunksOf {α : Type u} : Nat → List α → List (List α)
  | _, [] => []
  | 0, xs => [xs]
  | n + 1, x :: xs => (x :: xs.take n) :: chunksOf (n + 1) (xs.drop n)
termination_by _n xs => xs.length
decreasing_by simp [List.length_drop]; omega

theorem chunksOf_flatten {α : Type u} (n : Nat) (xs : List α) :
    (chunksOf n xs).flatten = xs := by
  induction n, xs using chunksOf.induct with
  | case1 _ => simp [chunksOf]
  | case2 xs h => simp [chunksOf]
  | case3 n x xs ih =>
      simp only [chunksOf, List.flatten_cons, ih]
      simp [List.take_append_drop]

theorem chunksOf_chunk_bound {α : Type u} (n : Nat) (hn : 0 < n)
    (xs : List α) (c : List α)
    (hc : c ∈ chunksOf n xs) : c.length ≤ n ∧ c ≠ [] := by
  induction n, xs using chunksOf.induct with
  | case1 m =>
      simp [chunksOf] at hc
  | case2 xs h =>
      exact absurd hn (by omega)
  | case3 n x xs ih =>
      simp only [chunksOf, List.mem_cons] at hc
      rcases hc with h | h
      · subst h
        refine ⟨?_, by simp⟩
        simp only [List.length_cons, List.length_take]
        omega
      · exact ih (by omega) h

/-- When a positive chunk size divides the input length, every chunk is full. -/
theorem chunksOf_full {α : Type u} (n : Nat) (hn : 0 < n) (xs : List α)
    (hdvd : n ∣ xs.length) :
    ∀ c ∈ chunksOf n xs, c.length = n := by
  induction n, xs using chunksOf.induct with
  | case1 m =>
      intro c hc
      simp [chunksOf] at hc
  | case2 xs h =>
      exact absurd hn (by omega)
  | case3 n x xs ih =>
      intro c hc
      have h1 : (n + 1) ∣ (xs.length + 1) := by
        simpa using hdvd
      have hlen : n ≤ xs.length := by
        have := Nat.le_of_dvd (by omega) h1
        omega
      simp only [chunksOf, List.mem_cons] at hc
      rcases hc with h | h
      · subst h
        simp only [List.length_cons, List.length_take]
        omega
      · have hdvd' : (n + 1) ∣ (xs.drop n).length := by
          have h2 := Nat.dvd_sub' h1 (dvd_refl (n + 1))
          have h3 : xs.length + 1 - (n + 1) = xs.length - n := by omega
          simpa [List.length_drop, h3] using h2
        exact ih hn hdvd' c h

theorem chunksOf_cons_unfold {α : Type u} (n : Nat) (hn : 0 < n)
    (xs : List α) (hx : xs ≠ []) :
    chunksOf n xs = xs.take n :: chunksOf n (xs.drop n) := by
  match n, xs with
  | _, [] => exact absurd rfl hx
  | 0, xs => exact absurd hn (by omega)
  | n + 1, x :: xs => simp [chunksOf]

theorem chunksOf_of_len_le {α : Type u} (n : Nat) (hn : 0 < n)
    (xs : List α) (hx : xs ≠ []) (hlen : xs.length ≤ n) :
    chunksOf n xs = [xs] := by
  rw [chunksOf_cons_unfold n hn xs hx]
  rw [List.take_of_length_le hlen, List.drop_eq_nil_of_le hlen]
  match n, hn with
  | n + 1, _ => simp [chunksOf]

theorem chunksOf_len_two {α : Type u} (n : Nat) (hn : 0 < n)
    (xs : List α) (hlen : xs.length = 2 * n) :
    (chunksOf n xs).length = 2 := by
  have hx : xs ≠ [] := by
    intro h
    subst h
    simp at hlen
    omega
  rw [chunksOf_cons_unfold n hn xs hx]
  have hd : (xs.drop n).length = n := by
    simp [List.length_drop, hlen]
    omega
  have hdx : xs.drop n ≠ [] := by
    intro h
    rw [h] at hd
    simp at hd
    omega
  rw [chunksOf_of_len_le n hn (xs.drop n) hdx (by omega)]
  simp

/-- Every chunk except possibly the last one is full. -/
theorem chunksOf_full_of_not_last {α : Type u} (n : Nat) (hn : 0 < n)
    (xs : List α) :
    ∀ i c, i + 1 < (chunksOf n xs).length → (chunksOf n xs)[i]? = some c →
      c.length = n := by
  induction n, xs using chunksOf.induct with
  | case1 m =>
      intro i c hi hc
      simp [chunksOf] at hi
  | case2 xs h =>
      exact absurd hn (by omega)
  | case3 n x xs ih =>
      intro i c hi hc
      simp only [chunksOf] at hi hc
      match i with
      | 0 =>
          simp only [List.getElem?_cons_zero, Option.some.injEq] at hc
          have hne : chunksOf (n + 1) (xs.drop n) ≠ [] := by
            intro h
            rw [h] at hi
            simp at hi
          have hlen : n ≤ xs.length := by
            by_contra hcon
            have hnil : xs.drop n = [] := by
              apply List.drop_eq_nil_of_le
              omega
            rw [hnil] at hne
            exact hne (by simp [chunksOf])
          subst hc
          simp only [List.length_cons, List.length_take]
          omega
      | i + 1 =>
          simp only [List.getElem?_cons_succ] at hc
          simp only [List.length_cons] at hi
          exact ih (by omega) i c (by omega) hc

/-- Downmix from `commands/meeting.rs` (`transcribe_meeting` and
`diarize_entry`): if the WAV has more than one channel, consume the
interleaved buffer frame by frame and average each frame over the channel
count; otherwise pass the samples through. -/
def downmixChannels (rawSamples : List ℚ) (channels : Nat) : List ℚ :=
  if 1 < channels then
    (chunksOf channels rawSamples).map (fun frame => frame.sum / (channels : ℚ))
  else rawSamples

/-- Linear-interpolation resampler from `commands/meeting.rs` (lines
159-176, duplicated in `commands/video.rs` lines 139-155): when the source
rate differs from the target rate, output `floor (len / ratio)` samples,
each interpolated between the two neighbouring input samples at position
`i * ratio`; otherwise pass the samples through. -/
def resampleLinear (monoSamples : List ℚ) (srcRate targetRate : Nat) : List ℚ :=
  if srcRate ≠ targetRate then
    let ratio : ℚ := (srcRate : ℚ) / (targetRate : ℚ)
    let newLen : Nat := (ratTrunc ((monoSamples.length : ℚ) / ratio)).toNat
    (List.range newLen).map (fun (i : Nat) =>
      let srcIdx : ℚ := (i : ℚ) * ratio
      let idx : Nat := (ratTrunc srcIdx).toNat
      let frac : ℚ := srcIdx - (idx : ℚ)
      let a : ℚ := (monoSamples[idx]?).getD 0
      let b : ℚ := (monoSamples[idx + 1]?).getD a
      a + (b - a) * frac)
  else monoSamples

-- ### Speaker clustering (pyannote-rs `EmbeddingManager`, modelled from the spec)

/-- Modelled from the spec: the speaker registry entry of the external
pyannote-rs `EmbeddingManager` (the clustering crate is not part of this
repository's sources).  Spec section 4.4: each speaker id maps to a running
centroid embedding together with its assignment count. -/
structure SpeakerProfile where
  centroid : List ℚ
  count : Nat
deriving DecidableEq

/-- Modelled from the spec: the state of the external pyannote-rs
`EmbeddingManager` created by `EmbeddingManager::new(max_speakers)` in
`diarize.rs`.  Speaker ids are the dense indices of `speakers`, assigned in
creation order starting at 0 (spec section 3, SpeakerRegistry). -/
structure EmbeddingManager where
  speakers : List SpeakerProfile
  maxSpeakers : Nat
deriving DecidableEq

/-- Modelled from the spec: the best existing speaker for an embedding under
a similarity measure `sim` (cosine similarity in the spec; abstracted here
as a parameter, since its exact numeric value never matters to the claims).
Returns the index (relative base `i`) and similarity of the best centroid,
ties broken toward the lowest speaker id (spec section 4.4 step 2). -/
def bestMatchFrom (sim : List ℚ → List ℚ → ℚ) (e : List ℚ) :
    List SpeakerProfile → Nat → Option (Nat × ℚ)
  | [], _ => none
  | p :: rest, i =>
    match bestMatchFrom sim e rest (i + 1) with
    | none => some (i, sim e p.centroid)
    | some (j, s) =>
        if sim e p.centroid ≥ s then some (i, sim e p.centroid)
        else some (j, s)

/-- Modelled from the spec: running-mean centroid update on assignment,
spec section 4.4 step 3: `centroid' = centroid + (embedding - centroid) / n`
with `n` the post-increment assignment count. -/
def updateCentroid (c e : List ℚ) (n : Nat) : List ℚ :=
  (c.zip e).map (fun p => p.1 + (p.2 - p.1) / (n : ℚ))

/-- Modelled from the spec: assign embedding `e` to the existing speaker
`id`, updating its running centroid and count (spec section 4.4 step 3). -/
def assignTo (mgr : EmbeddingManager) (id : Nat) (e : List ℚ) :
    EmbeddingManager :=
  match mgr.speakers[id]? with
  | none => mgr
  | some p =>
      { mgr with
        speakers :=
          mgr.speakers.set id ⟨updateCentroid p.centroid e (p.count + 1), p.count + 1⟩ }

/-- Modelled from the spec: pyannote-rs `EmbeddingManager::search_speaker`,
called by `diarize_audio` while the registry is below the cap.  Spec
section 4.4 step 1: if the best similarity clears `threshold`, assign that
speaker; otherwise, if below the cap, create a new speaker id equal to the
current registry size, seeded with this embedding; past the cap report no
match (`None`). -/
def searchSpeaker (sim : List ℚ → List ℚ → ℚ) (mgr : EmbeddingManager)
    (e : List ℚ) (threshold : ℚ) : Option Nat × EmbeddingManager :=
  match bestMatchFrom sim e mgr.speakers 0 with
  | some (j, s) =>
      if s ≥ threshold then (some j, assignTo mgr j e)
      else if mgr.speakers.length < mgr.maxSpeakers then
        (some mgr.speakers.length,
         { mgr with speakers := mgr.speakers ++ [⟨e, 1⟩] })
      else (none, mgr)
  | none =>
      if mgr.speakers.length < mgr.maxSpeakers then
        (some mgr.speakers.length,
         { mgr with speakers := mgr.speakers ++ [⟨e, 1⟩] })
      else (none, mgr)

/-- Modelled from the spec: pyannote-rs
`EmbeddingManager::get_best_speaker_match`, called by `diarize_audio` once
the registry is at the cap.  Spec section 4.4 step 2: always assign the
existing speaker with the highest similarity regardless of the threshold
(lowest id on ties); no new speaker is ever created; the registry stays
open for centroid updates.  `None` only when the registry is empty. -/
def getBestSpeakerMatch (sim : List ℚ → List ℚ → ℚ) (mgr : EmbeddingManager)
    (e : List ℚ) : Option Nat × EmbeddingManager :=
  match bestMatchFrom sim e mgr.speakers 0 with
  | some (j, _) => (some j, assignTo mgr j e)
  | none => (none, mgr)

-- ### diarize_audio (`src-tauri/src/diarize.rs`)

/-- A speech segment as produced by `pyannote_rs::get_segments`: start and
end times in seconds and the (i16) samples of the region. -/
structure Segment where
  start : ℚ
  stop : ℚ
  samples : List Int
deriving DecidableEq

/-- `diarize.rs`: result of diarization before transcription. -/
structure RawDiarizedSegment where
  speaker : Option Int
  start_ms : Int
  end_ms : Int
  samples : List ℚ
deriving DecidableEq

/-- `diarize.rs` lines 145-148: `(s.clamp(-1.0, 1.0) * i16::MAX as f32) as i16`. -/
def toI16 (s : ℚ) : Int :=
  ratTrunc ((max (-1) (min 1 s)) * 32767)

/-- The speaker-assignment step of the `diarize_audio` loop
(`diarize.rs` lines 184-191): at or above the cap ask for the best
existing match, below the cap search with the threshold; in both branches
`unwrap_or(0)` falls back to speaker 0 when the manager reports no match. -/
def diarizeStep (sim : List ℚ → List ℚ → ℚ) (threshold : ℚ)
    (mgr : EmbeddingManager) (e : List ℚ) : Nat × EmbeddingManager :=
  if mgr.speakers.length ≥ mgr.maxSpeakers then
    let r := getBestSpeakerMatch sim mgr e
    (r.1.getD 0, r.2)
  else
    let r := searchSpeaker sim mgr e threshold
    (r.1.getD 0, r.2)

/-- The per-segment loop of `diarize_audio` (`diarize.rs` lines 177-206):
compute the embedding of each segment (failure aborts the whole call via
`?`), assign a speaker through the manager, and emit a
`RawDiarizedSegment` whose samples are converted back from i16 to f32. -/
def diarizeLoop (compute : List Int → Except String (List ℚ))
    (sim : List ℚ → List ℚ → ℚ) (threshold : ℚ) (mgr : EmbeddingManager) :
    List Segment → Except String (List RawDiarizedSegment)
  | [] => .ok []
  | seg :: rest =>
    match compute seg.samples with
    | .error e => .error ("Embedding computation failed: " ++ e)
    | .ok emb =>
      let sm := diarizeStep sim threshold mgr emb
      match diarizeLoop compute sim threshold sm.2 rest with
      | .error e => .error e
      | .ok res =>
          .ok ({ speaker := some (sm.1 : Int),
                 start_ms := ratTrunc (seg.start * 1000),
                 end_ms := ratTrunc (seg.stop * 1000),
                 samples := seg.samples.map (fun s => (s : ℚ) / 32767) } :: res)

/-- The per-item filter of the segment iterator in `diarize_audio`
(`diarize.rs` lines 154-162): segments reported as errors by the
capability are skipped (each with a `warn!` log), successful ones kept. -/
def segmentOk : Except String Segment → Option Segment
  | .ok seg => some seg
  | .error _ => none

/-- `diarize_audio` (`diarize.rs` lines 136-215).  The external
capabilities are parameters: `getSegments` stands for
`pyannote_rs::get_segments` (returning the items of its segment iterator,
each of which may individually be an error), `compute` for
`EmbeddingExtractor::compute`, and `sim` for the similarity measure used
by the `EmbeddingManager`.  Mirrors: f32 to i16 conversion, the fatal
segmentation error, per-segment errors skipped with a warning, the
empty-segments early return, and the speaker-assignment loop. -/
def diarize_audio (getSegments : List Int → Except String (List (Except String Segment)))
    (compute : List Int → Except String (List ℚ))
    (sim : List ℚ → List ℚ → ℚ)
    (samples : List ℚ) (maxSpeakers : Nat) (threshold : ℚ) :
    Except String (List RawDiarizedSegment) :=
  let i16Samples := samples.map toI16
  match getSegments i16Samples with
  | .error e => .error ("Segmentation failed: " ++ e)
  | .ok items =>
    let segments := items.filterMap segmentOk
    if segments.isEmpty then .ok []
    else diarizeLoop compute sim threshold ⟨[], maxSpeakers⟩ segments

-- ### transcribe_chunked (`src-tauri/src/commands/video.rs`)

/-- Rust `str::trim`: strip leading and trailing whitespace.  Embedded as
an explicit computation on the character list because Lean's own
`String.trim` is defined by well-founded recursion on byte positions and
does not reduce definitionally. -/
def trimString (s : String) : String :=
  ⟨((s.data.dropWhile Char.isWhitespace).reverse.dropWhile
      Char.isWhitespace).reverse⟩

/-- `video.rs` line 13: 30 seconds of audio at 16 kHz. -/
def CHUNK_SIZE : Nat := 16000 * 30

/-- The chunk loop of `transcribe_chunked` (`video.rs` lines 28-38):
transcribe each chunk in order (`i` is the 0-based enumeration index), a
failure aborts with the 1-based failing chunk index in the message,
trimmed results are kept only when non-empty. -/
def chunkLoop (tr : List ℚ → Except String String) :
    Nat → List (List ℚ) → Except String (List String)
  | _, [] => .ok []
  | i, c :: cs =>
    match tr c with
    | .error e =>
        .error ("Transcription failed on chunk " ++ toString (i + 1) ++ ": " ++ e)
    | .ok text =>
      match chunkLoop tr (i + 1) cs with
      | .error e => .error e
      | .ok parts =>
          let trimmed := trimString text
          .ok (if trimmed.isEmpty then parts else trimmed :: parts)

/-- `transcribe_chunked` (`video.rs` lines 9-41), with the
`TranscriptionManager::transcribe` capability as the parameter `tr`:
inputs of at most `CHUNK_SIZE` samples are transcribed directly (one call
on the whole input, result returned untrimmed); longer inputs are split
into `CHUNK_SIZE` chunks, transcribed in order, and the surviving trimmed
texts are joined with a single space. -/
def transcribe_chunked (tr : List ℚ → Except String String)
    (samples : List ℚ) : Except String String :=
  if samples.length ≤ CHUNK_SIZE then
    match tr samples with
    | .error e => .error ("Transcription failed: " ++ e)
    | .ok text => .ok text
  else
    match chunkLoop tr 0 (chunksOf CHUNK_SIZE samples) with
    | .error e => .error e
    | .ok parts => .ok (String.intercalate " " parts)

-- ### transcribe_meeting (`src-tauri/src/commands/meeting.rs`)

/-- `diarize.rs` lines 15-21: a diarized speech segment after
transcription. -/
structure DiarizedSegment where
  speaker : Option Int
  start_ms : Int
  end_ms : Int
  text : String
deriving DecidableEq

/-- The observable outcome of a `transcribe_meeting` run: the `stage`
values emitted on the `meeting-status` event channel in order, the
segment list passed to `save_meeting_segments`, the flattened transcript
passed to `update_entry_after_processing`, and the 0-based indices of
regions whose transcription failed (each logged as a warning). -/
structure MeetingOutcome where
  stages : List String
  segments : List DiarizedSegment
  flatText : String
  warnings : List Nat
deriving DecidableEq

/-- The per-region transcription loop of `transcribe_meeting`
(`meeting.rs` lines 232-270): empty-sample regions get empty text, a
failed transcription is logged (warning index collected here) and
degraded to empty text, and only regions with non-empty trimmed text
contribute a `DiarizedSegment` and a `[Speaker N]`/`[Unknown]`-prefixed
flat line.  Returns (segments, flat lines, warning indices). -/
def meetingLoop (tc : List ℚ → Except String String) :
    Nat → List RawDiarizedSegment →
      List DiarizedSegment × List String × List Nat
  | _, [] => ([], [], [])
  | i, seg :: rest =>
    let tw : String × List Nat :=
      if seg.samples.isEmpty then ("", [])
      else
        match tc seg.samples with
        | .ok t => (t, [])
        | .error _ => ("", [i])
    let res := meetingLoop tc (i + 1) rest
    let trimmed := trimString tw.1
    let speakerLabel :=
      match seg.speaker with
      | some s => "[Speaker " ++ toString s ++ "]"
      | none => "[Unknown]"
    (if trimmed.isEmpty then res.1
     else { speaker := seg.speaker, start_ms := seg.start_ms,
            end_ms := seg.end_ms, text := trimmed } :: res.1,
     if trimmed.isEmpty then res.2.1
     else (speakerLabel ++ " " ++ trimmed) :: res.2.1,
     tw.2 ++ res.2.2)

/-- The processing core of `transcribe_meeting` (`meeting.rs` lines
122-301), starting after the entry/WAV file has been loaded: downmix to
mono, resample to 16 kHz, diarize (`diar` stands for the call to
`diarize_audio` with the model paths, `max_speakers` and `threshold`
already applied), then either finish immediately with an empty
transcription when no speech was found, or transcribe each region
per-region (`tc` stands for `transcribe_chunked` applied to the
transcription manager) and persist segments plus the newline-joined flat
transcript.  Stage events: `loading`, `diarizing`, then on the non-empty
path one `transcribing` with the total, one `transcribing` per region,
and finally `done`. -/
def transcribe_meeting
    (diar : List ℚ → Except String (List RawDiarizedSegment))
    (tc : List ℚ → Except String String)
    (rawSamples : List ℚ) (channels srcRate : Nat) :
    Except String MeetingOutcome :=
  let monoSamples := downmixChannels rawSamples channels
  let samples := resampleLinear monoSamples srcRate 16000
  match diar samples with
  | .error e => .error e
  | .ok rawSegments =>
    if rawSegments.isEmpty then
      .ok { stages := ["loading", "diarizing", "done"],
            segments := [], flatText := "", warnings := [] }
    else
      let res := meetingLoop tc 0 rawSegments
      .ok { stages := ["loading", "diarizing", "transcribing"]
                        ++ rawSegments.map (fun _ => "transcribing") ++ ["done"],
            segments := res.1,
            flatText := String.intercalate "\n" res.2.1,
            warnings := res.2.2 }

/-- Characterization of one region's fate in the `transcribe_meeting`
loop: the `DiarizedSegment` it contributes, if any. -/
def regionSegment (tc : List ℚ → Except String String)
    (seg : RawDiarizedSegment) : Option DiarizedSegment :=
  let text : String :=
    if seg.samples.isEmpty then ""
    else
      match tc seg.samples with
      | .ok t => t
      | .error _ => ""
  if (trimString text).isEmpty then none
  else some { speaker := seg.speaker, start_ms := seg.start_ms,
              end_ms := seg.end_ms, text := trimString text }

/-- Characterization of one region's fate in the `transcribe_meeting`
loop: the flat transcript line it contributes, if any. -/
def regionLine (tc : List ℚ → Except String String)
    (seg : RawDiarizedSegment) : Option String :=
  let text : String :=
    if seg.samples.isEmpty then ""
    else
      match tc seg.samples with
      | .ok t => t
      | .error _ => ""
  if (trimString text).isEmpty then none
  else
    let speakerLabel :=
      match seg.speaker with
      | some s => "[Speaker " ++ toString s ++ "]"
      | none => "[Unknown]"
    some (speakerLabel ++ " " ++ trimString text)

theorem empty_trim_isEmpty : (trimString "").isEmpty = true := rfl

theorem meetingLoop_segments_eq (tc : List ℚ → Except String String)
    (i : Nat) (raws : List RawDiarizedSegment) :
    (meetingLoop tc i raws).1 = raws.filterMap (regionSegment tc)
      ∧ (meetingLoop tc i raws).2.1 = raws.filterMap (regionLine tc) := by
  induction raws generalizing i with
  | nil => simp [meetingLoop]
  | cons seg rest ih =>
      rcases ih (i + 1) with ⟨ih1, ih2⟩
      by_cases hempty : seg.samples.isEmpty = true
      · simp only [meetingLoop, regionSegment, regionLine, hempty, if_true,
          List.filterMap_cons]
        simp [empty_trim_isEmpty, ih1, ih2]
      · match htc : tc seg.samples with
        | .ok t =>
            simp only [meetingLoop, regionSegment, regionLine, hempty, if_false,
              htc, List.filterMap_cons]
            by_cases htrim : (trimString t).isEmpty = true
            · simp [htrim, ih1, ih2]
            · simp [htrim, ih1, ih2]
        | .error e =>
            simp only [meetingLoop, regionSegment, regionLine, hempty, if_false,
              htc, List.filterMap_cons]
            simp [empty_trim_isEmpty, ih1, ih2]

/-- The 0-based indices of the regions whose transcription fails (each one
logged with `warn!` in the source loop), with `i` the index of the first
listed region. -/
def warnIndicesFrom (tc : List ℚ → Except String String) :
    Nat → List RawDiarizedSegment → List Nat
  | _, [] => []
  | i, seg :: rest =>
    (if seg.samples.isEmpty = false ∧ (tc seg.samples).isOk = false
     then [i] else []) ++ warnIndicesFrom tc (i + 1) rest

theorem meetingLoop_warnings_eq (tc : List ℚ → Except String String)
    (i : Nat) (raws : List RawDiarizedSegment) :
    (meetingLoop tc i raws).2.2 = warnIndicesFrom tc i raws := by
  induction raws generalizing i with
  | nil => simp [meetingLoop, warnIndicesFrom]
  | cons seg rest ih =>
      by_cases hempty : seg.samples.isEmpty = true
      · simp only [meetingLoop, warnIndicesFrom, hempty, if_true]
        simp [hempty, ih]
      · match htc : tc seg.samples with
        | .ok t =>
            simp only [meetingLoop, warnIndicesFrom, hempty, if_false, htc]
            have hok : (tc seg.samples).isOk = true := by
              rw [htc]; rfl
            simp [Bool.not_eq_true] at hempty
            simp [hempty, hok, htc, ih, Except.isOk, Except.toBool]
        | .error e =>
            simp only [meetingLoop, warnIndicesFrom, hempty, if_false, htc]
            have hok : (tc seg.samples).isOk = false := by
              rw [htc]; rfl
            simp [Bool.not_eq_true] at hempty
            simp [hempty, hok, htc, ih, Except.isOk, Except.toBool]

theorem warnIndicesFrom_mem (tc : List ℚ → Except String String)
    (raws : List RawDiarizedSegment) :
    ∀ i j seg, raws[j]? = some seg → seg.samples.isEmpty = false →
      (tc seg.samples).isOk = false → (i + j) ∈ warnIndicesFrom tc i raws := by
  induction raws with
  | nil =>
      intro i j seg hj
      simp at hj
  | cons first rest ih =>
      intro i j seg hj hne htc
      match j with
      | 0 =>
          simp only [List.getElem?_cons_zero, Option.some.injEq] at hj
          subst hj
          simp [warnIndicesFrom, hne, htc]
      | j + 1 =>
          simp only [List.getElem?_cons_succ] at hj
          have hmem := ih (i + 1) j seg hj hne htc
          have harith : i + 1 + j = i + (j + 1) := by omega
          rw [harith] at hmem
          simp [warnIndicesFrom, hmem]

-- ### Invariant lemmas for the clustering model

theorem bestMatchFrom_bounds (sim : List ℚ → List ℚ → ℚ) (e : List ℚ)
    (l : List SpeakerProfile) :
    ∀ i j s, bestMatchFrom sim e l i = some (j, s) → i ≤ j ∧ j < i + l.length := by
  induction l with
  | nil =>
      intro i j s h
      simp [bestMatchFrom] at h
  | cons p rest ih =>
      intro i j s h
      simp only [bestMatchFrom] at h
      match hrec : bestMatchFrom sim e rest (i + 1) with
      | none =>
          rw [hrec] at h
          simp only [Option.some.injEq, Prod.mk.injEq] at h
          obtain ⟨h1, _⟩ := h
          subst h1
          simp only [List.length_cons]
          omega
      | some js =>
          rw [hrec] at h
          have hb := ih (i + 1) js.1 js.2 hrec
          by_cases hge : sim e p.centroid ≥ js.2
          · simp only [hge, if_true, Option.some.injEq, Prod.mk.injEq] at h
            obtain ⟨h1, _⟩ := h
            subst h1
            simp only [List.length_cons]
            omega
          · simp only [hge, if_false, Option.some.injEq] at h
            have h1 : js.1 = j := by
              have := congrArg Prod.fst h
              simpa using this
            rw [h1] at hb
            simp only [List.length_cons]
            omega

theorem bestMatchFrom_isSome (sim : List ℚ → List ℚ → ℚ) (e : List ℚ)
    (l : List SpeakerProfile) (hl : l ≠ []) (i : Nat) :
    (bestMatchFrom sim e l i).isSome = true := by
  match l with
  | [] => exact absurd rfl hl
  | p :: rest =>
      simp only [bestMatchFrom]
      match hrec : bestMatchFrom sim e rest (i + 1) with
      | none => simp
      | some js =>
          obtain ⟨j, s⟩ := js
          by_cases hge : sim e p.centroid ≥ s
          · simp [hge]
          · simp [hge]

theorem assignTo_speakers_length (mgr : EmbeddingManager) (id : Nat)
    (e : List ℚ) :
    (assignTo mgr id e).speakers.length = mgr.speakers.length := by
  simp only [assignTo]
  match mgr.speakers[id]? with
  | none => rfl
  | some p => simp

theorem assignTo_maxSpeakers (mgr : EmbeddingManager) (id : Nat) (e : List ℚ) :
    (assignTo mgr id e).maxSpeakers = mgr.maxSpeakers := by
  simp only [assignTo]
  match mgr.speakers[id]? with
  | none => rfl
  | some p => rfl

theorem searchSpeaker_inv (sim : List ℚ → List ℚ → ℚ) (mgr : EmbeddingManager)
    (e : List ℚ) (threshold : ℚ) :
    (searchSpeaker sim mgr e threshold).2.maxSpeakers = mgr.maxSpeakers
    ∧ ((searchSpeaker sim mgr e threshold).2.speakers.length = mgr.speakers.length
        ∨ ((searchSpeaker sim mgr e threshold).2.speakers.length = mgr.speakers.length + 1
            ∧ mgr.speakers.length < mgr.maxSpeakers))
    ∧ (∀ j, (searchSpeaker sim mgr e threshold).1 = some j →
        j < mgr.speakers.length ∨ (j = mgr.speakers.length ∧ j < mgr.maxSpeakers)) := by
  simp only [searchSpeaker]
  match hbm : bestMatchFrom sim e mgr.speakers 0 with
  | some js =>
      have hb := bestMatchFrom_bounds sim e mgr.speakers 0 js.1 js.2 (by
        rw [hbm])
      by_cases hge : js.2 ≥ threshold
      · refine ⟨by simp [hge, assignTo_maxSpeakers], ?_, ?_⟩
        · left
          simp [hge, assignTo_speakers_length]
        · intro j hj
          simp only [hge, if_true] at hj
          left
          cases hj
          omega
      · by_cases hlt : mgr.speakers.length < mgr.maxSpeakers
        · refine ⟨by simp [hge, hlt], ?_, ?_⟩
          · right
            constructor
            · simp [hge, hlt]
            · exact hlt
          · intro j hj
            simp only [hge, if_false, hlt, if_true] at hj
            right
            cases hj
            exact ⟨rfl, hlt⟩
        · refine ⟨by simp [hge, hlt], ?_, ?_⟩
          · left
            simp [hge, hlt]
          · intro j hj
            simp only [hge, if_false, hlt] at hj
            cases hj
  | none =>
      by_cases hlt : mgr.speakers.length < mgr.maxSpeakers
      · refine ⟨by simp [hlt], ?_, ?_⟩
        · right
          exact ⟨by simp [hlt], hlt⟩
        · intro j hj
          simp only [hlt, if_true] at hj
          right
          cases hj
          exact ⟨rfl, hlt⟩
      · refine ⟨by simp [hlt], ?_, ?_⟩
        · left
          simp [hlt]
        · intro j hj
          simp only [hlt, if_false] at hj
          cases hj

theorem getBestSpeakerMatch_inv (sim : List ℚ → List ℚ → ℚ)
    (mgr : EmbeddingManager) (e : List ℚ) :
    (getBestSpeakerMatch sim mgr e).2.maxSpeakers = mgr.maxSpeakers
    ∧ (getBestSpeakerMatch sim mgr e).2.speakers.length = mgr.speakers.length
    ∧ (∀ j, (getBestSpeakerMatch sim mgr e).1 = some j →
        j < mgr.speakers.length)
    ∧ (mgr.speakers ≠ [] → ((getBestSpeakerMatch sim mgr e).1).isSome = true) := by
  simp only [getBestSpeakerMatch]
  match hbm : bestMatchFrom sim e mgr.speakers 0 with
  | some js =>
      have hb := bestMatchFrom_bounds sim e mgr.speakers 0 js.1 js.2 (by
        rw [hbm])
      refine ⟨assignTo_maxSpeakers _ _ _, assignTo_speakers_length _ _ _, ?_, ?_⟩
      · intro j hj
        cases hj
        omega
      · intro _
        rfl
  | none =>
      refine ⟨rfl, rfl, ?_, ?_⟩
      · intro j hj
        cases hj
      · intro hne
        have := bestMatchFrom_isSome sim e mgr.speakers hne 0
        rw [hbm] at this
        simp at this

/-- The three facts of the cap invariant, packaged for the step function:
size never exceeds the cap, no assigned id ever reaches the cap, and once
at the cap the registry never grows. -/
theorem diarizeStep_inv (sim : List ℚ → List ℚ → ℚ) (threshold : ℚ)
    (mgr : EmbeddingManager) (e : List ℚ) (k : Nat) (hk : 1 ≤ k)
    (hmax : mgr.maxSpeakers = k) (hlen : mgr.speakers.length ≤ k) :
    (diarizeStep sim threshold mgr e).2.maxSpeakers = k
    ∧ (diarizeStep sim threshold mgr e).2.speakers.length ≤ k
    ∧ (diarizeStep sim threshold mgr e).1 < k
    ∧ (mgr.speakers.length = k →
        (diarizeStep sim threshold mgr e).2.speakers.length = k) := by
  simp only [diarizeStep]
  by_cases hge : mgr.speakers.length ≥ mgr.maxSpeakers
  · simp only [hge, if_true]
    obtain ⟨h1, h2, h3, h4⟩ := getBestSpeakerMatch_inv sim mgr e
    refine ⟨by rw [h1, hmax], by omega, ?_, by omega⟩
    match hr : (getBestSpeakerMatch sim mgr e).1 with
    | some j =>
        have := h3 j hr
        simp only [Option.getD]
        omega
    | none => simpa using hk
  · simp only [hge, if_false]
    obtain ⟨h1, h2, h3⟩ := searchSpeaker_inv sim mgr e threshold
    have hlt : mgr.speakers.length < k := by omega
    refine ⟨by rw [h1, hmax], by omega, ?_, by omega⟩
    match hr : (searchSpeaker sim mgr e threshold).1 with
    | some j =>
        have := h3 j hr
        simp only [Option.getD]
        omega
    | none => simpa using hk

theorem diarizeLoop_speaker_bound (compute : List Int → Except String (List ℚ))
    (sim : List ℚ → List ℚ → ℚ) (threshold : ℚ) (k : Nat) (hk : 1 ≤ k) :
    ∀ (segs : List Segment) (mgr : EmbeddingManager)
      (out : List RawDiarizedSegment),
      mgr.maxSpeakers = k → mgr.speakers.length ≤ k →
      diarizeLoop compute sim threshold mgr segs = .ok out →
      ∀ s ∈ out, ∀ id, s.speaker = some id → 0 ≤ id ∧ id < (k : Int) := by
  intro segs
  induction segs with
  | nil =>
      intro mgr out _ _ hout s hs
      simp only [diarizeLoop] at hout
      cases hout
      simp at hs
  | cons seg rest ih =>
      intro mgr out hmax hlen hout s hs id hid
      simp only [diarizeLoop] at hout
      match hcomp : compute seg.samples with
      | .error e =>
          simp only [hcomp] at hout
          exact Except.noConfusion hout
      | .ok emb =>
          simp only [hcomp] at hout
          obtain ⟨hstep1, hstep2, hstep3, _⟩ :=
            diarizeStep_inv sim threshold mgr emb k hk hmax hlen
          match hrec : diarizeLoop compute sim threshold
              (diarizeStep sim threshold mgr emb).2 rest with
          | .error e =>
              simp only [hrec] at hout
              exact Except.noConfusion hout
          | .ok res =>
              simp only [hrec, Except.ok.injEq] at hout
              subst hout
              simp only [List.mem_cons] at hs
              rcases hs with hs | hs
              · subst hs
                simp only [Option.some.injEq] at hid
                subst hid
                constructor
                · exact Int.natCast_nonneg _
                · exact_mod_cast hstep3
              · exact ih (diarizeStep sim threshold mgr emb).2 res
                  hstep1 hstep2 hrec s hs id hid

theorem diarizeLoop_speaker_isSome (compute : List Int → Except String (List ℚ))
    (sim : List ℚ → List ℚ → ℚ) (threshold : ℚ) :
    ∀ (segs : List Segment) (mgr : EmbeddingManager)
      (out : List RawDiarizedSegment),
      diarizeLoop compute sim threshold mgr segs = .ok out →
      ∀ s ∈ out, s.speaker.isSome = true := by
  intro segs
  induction segs with
  | nil =>
      intro mgr out hout s hs
      simp only [diarizeLoop] at hout
      cases hout
      simp at hs
  | cons seg rest ih =>
      intro mgr out hout s hs
      simp only [diarizeLoop] at hout
      match hcomp : compute seg.samples with
      | .error e =>
          simp only [hcomp] at hout
          exact Except.noConfusion hout
      | .ok emb =>
          simp only [hcomp] at hout
          match hrec : diarizeLoop compute sim threshold
              (diarizeStep sim threshold mgr emb).2 rest with
          | .error e =>
              simp only [hrec] at hout
              exact Except.noConfusion hout
          | .ok res =>
              simp only [hrec, Except.ok.injEq] at hout
              subst hout
              simp only [List.mem_cons] at hs
              rcases hs with hs | hs
              · subst hs
                rfl
              · exact ih (diarizeStep sim threshold mgr emb).2 res hrec s hs

theorem diarizeLoop_ok_embeddings (compute : List Int → Except String (List ℚ))
    (sim : List ℚ → List ℚ → ℚ) (threshold : ℚ) :
    ∀ (segs : List Segment) (mgr : EmbeddingManager)
      (out : List RawDiarizedSegment),
      diarizeLoop compute sim threshold mgr segs = .ok out →
      ∀ seg ∈ segs, (compute seg.samples).isOk = true := by
  intro segs
  induction segs with
  | nil =>
      intro mgr out _ seg hseg
      simp at hseg
  | cons first rest ih =>
      intro mgr out hout seg hseg
      simp only [diarizeLoop] at hout
      match hcomp : compute first.samples with
      | .error e =>
          simp only [hcomp] at hout
          exact Except.noConfusion hout
      | .ok emb =>
          simp only [hcomp] at hout
          simp only [List.mem_cons] at hseg
          rcases hseg with hseg | hseg
          · subst hseg
            rw [hcomp]
            rfl
          · match hrec : diarizeLoop compute sim threshold
                (diarizeStep sim threshold mgr emb).2 rest with
            | .error e =>
                simp only [hrec] at hout
                exact Except.noConfusion hout
            | .ok res =>
                exact ih (diarizeStep sim threshold mgr emb).2 res hrec seg hseg

/-- Destructuring a successful `diarize_audio` call: either the filtered
segment list was empty (and the result is `[]`), or the per-segment loop
ran on the filtered segments starting from an empty registry. -/
theorem diarize_audio_ok_cases
    (gS : List Int → Except String (List (Except String Segment)))
    (compute : List Int → Except String (List ℚ)) (sim : List ℚ → List ℚ → ℚ)
    (samples : List ℚ) (k : Nat) (t : ℚ) (out : List RawDiarizedSegment)
    (hok : diarize_audio gS compute sim samples k t = .ok out) :
    ∃ items, gS (samples.map toI16) = .ok items
      ∧ ((items.filterMap segmentOk = [] ∧ out = [])
         ∨ diarizeLoop compute sim t ⟨[], k⟩ (items.filterMap segmentOk) = .ok out) := by
  simp only [diarize_audio] at hok
  match hgs : gS (samples.map toI16) with
  | .error e =>
      rw [hgs] at hok
      exact Except.noConfusion hok
  | .ok items =>
      refine ⟨items, rfl, ?_⟩
      rw [hgs] at hok
      by_cases hemp : items.filterMap segmentOk = []
      · left
        simp only [hemp, List.isEmpty_nil, if_true] at hok
        cases hok
        exact ⟨hemp, rfl⟩
      · right
        have : (items.filterMap segmentOk).isEmpty = false := by
          simpa [List.isEmpty_iff] using hemp
        simpa [this] using hok

-- ### Concrete fixtures for witnesses and counterexamples

/-- Fixture: a one-sample speech segment from 0 s to 1 s. -/
def segFix : Segment := { start := 0, stop := 1, samples := [5] }

/-- Fixture: the raw diarized segment `diarize_audio` produces for
`segFix` when the embedding succeeds and the registry is empty. -/
def rawFix : RawDiarizedSegment :=
  { speaker := some 0, start_ms := 0, end_ms := 1000, samples := [5 / 32767] }

/-- Fixture: a segmentation capability returning exactly `segFix`. -/
def gsFix : List Int → Except String (List (Except String Segment)) :=
  fun _ => .ok [.ok segFix]

/-- Fixture: a segmentation capability returning one errored region
followed by `segFix`. -/
def gsFixErr : List Int → Except String (List (Except String Segment)) :=
  fun _ => .ok [.error "bad", .ok segFix]

/-- Fixture: a segmentation capability returning only errored regions. -/
def gsAllErr : List Int → Except String (List (Except String Segment)) :=
  fun _ => .ok [.error "bad"]

/-- Fixture: an embedding capability that always succeeds. -/
def computeOne : List Int → Except String (List ℚ) := fun _ => .ok [1]

/-- Fixture: an embedding capability that always fails. -/
def computeFail : List Int → Except String (List ℚ) := fun _ => .error "boom"

/-- Fixture: a degenerate similarity measure. -/
def simZero : List ℚ → List ℚ → ℚ := fun _ _ => 0

/-- Fixture: a transcriber that always succeeds. -/
def tcOk : List ℚ → Except String String := fun _ => .ok "hi"

/-- Fixture: a transcriber that always fails. -/
def tcFail : List ℚ → Except String String := fun _ => .error "x"

/-- Fixture: a raw diarized segment with non-empty samples. -/
def rawFixB : RawDiarizedSegment :=
  { speaker := some 0, start_ms := 0, end_ms := 1000, samples := [1] }

/-- Fixture: a diarizer returning exactly `rawFixB`. -/
def diarFixB : List ℚ → Except String (List RawDiarizedSegment) :=
  fun _ => .ok [rawFixB]

/-- Fixture: a diarizer returning no speech regions. -/
def diarFixEmpty : List ℚ → Except String (List RawDiarizedSegment) :=
  fun _ => .ok []

-- ### Claims about diarize_audio

/-- Claim C10: every `RawDiarizedSegment` in the vector returned by a
successful `diarize_audio` call has a speaker assignment of the form
`Some id`; the speaker field is never `None` on the success path, because
whenever the clusterer reports no match the `unwrap_or(0)` fallback
assigns speaker id 0 instead. -/
theorem C10_speaker_always_some
    (gS : List Int → Except String (List (Except String Segment)))
    (compute : List Int → Except String (List ℚ)) (sim : List ℚ → List ℚ → ℚ)
    (samples : List ℚ) (k : Nat) (t : ℚ) (out : List RawDiarizedSegment)
    (hok : diarize_audio gS compute sim samples k t = .ok out) :
    ∀ s ∈ out, s.speaker.isSome = true := by
  obtain ⟨items, _, hcase⟩ :=
    diarize_audio_ok_cases gS compute sim samples k t out hok
  rcases hcase with ⟨_, hout⟩ | hloop
  · subst hout
    intro s hs
    simp at hs
  · exact diarizeLoop_speaker_isSome compute sim t
      (items.filterMap segmentOk) ⟨[], k⟩ out hloop

/-- Witness for C10 on a concrete one-region run. -/
theorem C10_witness :
    diarize_audio gsFix computeOne simZero [] 6 (1/2) = .ok [rawFix]
    ∧ rawFix.speaker.isSome = true :=
  ⟨by with_unfolding_all rfl,
   C10_speaker_always_some gsFix computeOne simZero [] 6 (1/2) [rawFix]
     (by with_unfolding_all rfl) rawFix (by simp)⟩

/-- Claim C3: when `diarize_audio` is run with `max_speakers = 1`, every
returned segment is assigned speaker id 0, for every input audio and
regardless of the embedding values produced for its regions. -/
theorem C3_single_speaker_all_zero
    (gS : List Int → Except String (List (Except String Segment)))
    (compute : List Int → Except String (List ℚ)) (sim : List ℚ → List ℚ → ℚ)
    (samples : List ℚ) (t : ℚ) (out : List RawDiarizedSegment)
    (hok : diarize_audio gS compute sim samples 1 t = .ok out) :
    ∀ s ∈ out, s.speaker = some 0 := by
  obtain ⟨items, _, hcase⟩ :=
    diarize_audio_ok_cases gS compute sim samples 1 t out hok
  rcases hcase with ⟨_, hout⟩ | hloop
  · subst hout
    intro s hs
    simp at hs
  · intro s hs
    have hsome := diarizeLoop_speaker_isSome compute sim t
      (items.filterMap segmentOk) ⟨[], 1⟩ out hloop s hs
    have hbound := diarizeLoop_speaker_bound compute sim t 1 (le_refl 1)
      (items.filterMap segmentOk) ⟨[], 1⟩ out rfl (by simp) hloop s hs
    rcases Option.isSome_iff_exists.mp hsome with ⟨id, hid⟩
    have hb := hbound id hid
    have hz : id = 0 := by omega
    rw [hid, hz]

/-- Witness for C3 on a concrete one-region run with `max_speakers = 1`. -/
theorem C3_witness :
    diarize_audio gsFix computeOne simZero [] 1 (1/2) = .ok [rawFix]
    ∧ rawFix.speaker = some 0 :=
  ⟨by with_unfolding_all rfl,
   C3_single_speaker_all_zero gsFix computeOne simZero [] (1/2) [rawFix]
     (by with_unfolding_all rfl) rawFix (by simp)⟩

/-- Claim C1 counterexample: a pipeline run in which the embedding
computation fails for the (one) region.  `diarize_audio` does not retain
the region with `speaker = None`: the whole call aborts with an error and
returns no segments at all. -/
theorem C1_counterexample :
    diarize_audio gsFix computeFail simZero [] 6 (1/2)
      = .error "Embedding computation failed: boom"
    ∧ (diarize_audio gsFix computeFail simZero [] 6 (1/2)).isOk = false := by
  constructor
  · with_unfolding_all rfl
  · with_unfolding_all rfl

/-- Claim C1 (amended): when the embedding computation fails for a region,
diarization does abort — `diarize_audio` propagates the failure with `?`
and returns an error, retaining no region with `speaker = None`.
Equivalently, any successful call implies the embedding computation
succeeded on every non-errored region the segmenter produced. -/
theorem C1_embedding_failure_aborts
    (gS : List Int → Except String (List (Except String Segment)))
    (compute : List Int → Except String (List ℚ)) (sim : List ℚ → List ℚ → ℚ)
    (samples : List ℚ) (k : Nat) (t : ℚ)
    (items : List (Except String Segment)) (out : List RawDiarizedSegment)
    (hitems : gS (samples.map toI16) = .ok items)
    (hok : diarize_audio gS compute sim samples k t = .ok out) :
    ∀ r ∈ items, ∀ seg, r = Except.ok seg → (compute seg.samples).isOk = true := by
  intro r hr seg hrseg
  subst hrseg
  obtain ⟨items', hitems', hcase⟩ :=
    diarize_audio_ok_cases gS compute sim samples k t out hok
  rw [hitems] at hitems'
  have heq := Except.ok.inj hitems'
  subst heq
  have hmem : seg ∈ items.filterMap segmentOk :=
    List.mem_filterMap.mpr ⟨Except.ok seg, hr, rfl⟩
  rcases hcase with ⟨hemp, _⟩ | hloop
  · rw [hemp] at hmem
    simp at hmem
  · exact diarizeLoop_ok_embeddings compute sim t
      (items.filterMap segmentOk) ⟨[], k⟩ out hloop seg hmem

/-- Witness for the amended C1 on a concrete all-success run. -/
theorem C1_witness :
    gsFix (List.map toI16 []) = .ok [Except.ok segFix]
    ∧ diarize_audio gsFix computeOne simZero [] 6 (1/2) = .ok [rawFix]
    ∧ (computeOne segFix.samples).isOk = true :=
  ⟨rfl, by with_unfolding_all rfl,
   C1_embedding_failure_aborts gsFix computeOne simZero [] 6 (1/2)
     [Except.ok segFix] [rawFix] rfl (by with_unfolding_all rfl)
     (Except.ok segFix) (by simp) segFix rfl⟩

/-- Claim C9: a region-level error reported by the segmentation capability
causes only that region to be discarded (the run is indistinguishable
from one in which the capability reported only the successful regions,
so the batch is never aborted), and a run that finds no speech regions
returns the empty list as a successful `Ok` result, not an error. -/
theorem C9_segment_errors_discarded
    (compute : List Int → Except String (List ℚ)) (sim : List ℚ → List ℚ → ℚ)
    (samples : List ℚ) (k : Nat) (t : ℚ)
    (items : List (Except String Segment)) :
    diarize_audio (fun _ => .ok items) compute sim samples k t
      = diarize_audio (fun _ => .ok ((items.filterMap segmentOk).map Except.ok))
          compute sim samples k t
    ∧ (items.filterMap segmentOk = [] →
        diarize_audio (fun _ => .ok items) compute sim samples k t = .ok []) := by
  have hcomp : ∀ seg : Segment, segmentOk (Except.ok seg) = some seg := fun _ => rfl
  have hff : ((items.filterMap segmentOk).map Except.ok).filterMap segmentOk
      = items.filterMap segmentOk := by
    rw [List.filterMap_map]
    have hfn : (segmentOk ∘ Except.ok) = some := by
      funext seg
      rfl
    rw [hfn]
    exact List.filterMap_some _
  constructor
  · simp only [diarize_audio, hff]
  · intro hemp
    simp only [diarize_audio, hemp]
    simp

/-- Witness for C9: a batch with one errored region and one good region,
and an all-errors batch. -/
theorem C9_witness :
    diarize_audio gsFixErr computeOne simZero [] 6 (1/2)
      = diarize_audio gsFix computeOne simZero [] 6 (1/2)
    ∧ [Except.error "bad"].filterMap segmentOk = ([] : List Segment)
    ∧ diarize_audio gsAllErr computeOne simZero [] 6 (1/2) = .ok [] :=
  ⟨(C9_segment_errors_discarded computeOne simZero [] 6 (1/2)
      [Except.error "bad", Except.ok segFix]).1,
   rfl,
   (C9_segment_errors_discarded computeOne simZero [] 6 (1/2)
      [Except.error "bad"]).2 rfl⟩

/-- Claim C2: for every run of `diarize_audio` with `max_speakers = k`
(`k ≥ 1`), the registry never grows beyond `k` speakers, once `k`
speakers exist no new id is ever created (the registry is closed for
growth), and every speaker id in the returned segments lies in
`{0, ..., k-1}`. -/
theorem C2_registry_cap (k : Nat) (hk : 1 ≤ k) (sim : List ℚ → List ℚ → ℚ)
    (threshold : ℚ) :
    (∀ (mgr : EmbeddingManager) (e : List ℚ),
        mgr.maxSpeakers = k → mgr.speakers.length ≤ k →
          ((diarizeStep sim threshold mgr e).2.speakers.length ≤ k
           ∧ (diarizeStep sim threshold mgr e).1 < k
           ∧ (mgr.speakers.length = k →
               (diarizeStep sim threshold mgr e).2.speakers.length = k)))
    ∧ (∀ (gS : List Int → Except String (List (Except String Segment)))
         (compute : List Int → Except String (List ℚ))
         (samples : List ℚ) (out : List RawDiarizedSegment),
         diarize_audio gS compute sim samples k threshold = .ok out →
         ∀ s ∈ out, s.speaker.isSome = true
           ∧ ∀ id, s.speaker = some id → 0 ≤ id ∧ id < (k : Int)) := by
  constructor
  · intro mgr e hmax hlen
    obtain ⟨_, h2, h3, h4⟩ := diarizeStep_inv sim threshold mgr e k hk hmax hlen
    exact ⟨h2, h3, h4⟩
  · intro gS compute samples out hok s hs
    obtain ⟨items, _, hcase⟩ :=
      diarize_audio_ok_cases gS compute sim samples k threshold out hok
    rcases hcase with ⟨_, hout⟩ | hloop
    · subst hout
      simp at hs
    · exact ⟨diarizeLoop_speaker_isSome compute sim threshold
          (items.filterMap segmentOk) ⟨[], k⟩ out hloop s hs,
        diarizeLoop_speaker_bound compute sim threshold k hk
          (items.filterMap segmentOk) ⟨[], k⟩ out rfl (by simp) hloop s hs⟩

/-- Witness for C2 at `k = 1`, both for the step function on a concrete
registry and for a concrete successful run. -/
theorem C2_witness :
    1 ≤ 1
    ∧ EmbeddingManager.maxSpeakers ⟨[], 1⟩ = 1
    ∧ (diarizeStep simZero (1/2) ⟨[], 1⟩ []).2.speakers.length ≤ 1
    ∧ (diarizeStep simZero (1/2) ⟨[], 1⟩ []).1 < 1
    ∧ diarize_audio gsFix computeOne simZero [] 1 (1/2) = .ok [rawFix]
    ∧ rawFix.speaker.isSome = true :=
  ⟨le_refl 1, rfl,
   ((C2_registry_cap 1 (le_refl 1) simZero (1/2)).1 ⟨[], 1⟩ [] rfl (by simp)).1,
   ((C2_registry_cap 1 (le_refl 1) simZero (1/2)).1 ⟨[], 1⟩ [] rfl (by simp)).2.1,
   by with_unfolding_all rfl,
   ((C2_registry_cap 1 (le_refl 1) simZero (1/2)).2 gsFix computeOne [] [rawFix]
     (by with_unfolding_all rfl) rawFix (by simp)).1⟩

-- ### Claims about transcribe_meeting

/-- Claim C4: during diarized per-region transcription in the pipeline, a
transcription failure for any one region is non-fatal: that region's text
becomes the empty string, a warning is recorded for it, the region
(having empty trimmed text) is excluded from the persisted segment list
and from the flattened transcript, and the run still completes
successfully through the done stage. -/
theorem C4_transcription_failure_nonfatal
    (diar : List ℚ → Except String (List RawDiarizedSegment))
    (tc : List ℚ → Except String String)
    (rawSamples : List ℚ) (channels srcRate : Nat)
    (raws : List RawDiarizedSegment)
    (hdiar : diar (resampleLinear (downmixChannels rawSamples channels)
        srcRate 16000) = .ok raws)
    (hne : raws ≠ []) :
    transcribe_meeting diar tc rawSamples channels srcRate =
      .ok { stages := ["loading", "diarizing", "transcribing"]
                        ++ raws.map (fun _ => "transcribing") ++ ["done"],
            segments := raws.filterMap (regionSegment tc),
            flatText := String.intercalate "\n" (raws.filterMap (regionLine tc)),
            warnings := warnIndicesFrom tc 0 raws }
    ∧ (["loading", "diarizing", "transcribing"]
         ++ raws.map (fun _ => "transcribing") ++ ["done"]).getLast? = some "done"
    ∧ (∀ seg ∈ raws, (tc seg.samples).isOk = false →
         regionSegment tc seg = none ∧ regionLine tc seg = none)
    ∧ (∀ j seg, raws[j]? = some seg → seg.samples.isEmpty = false →
         (tc seg.samples).isOk = false → j ∈ warnIndicesFrom tc 0 raws) := by
  have hempty : raws.isEmpty = false := by
    simpa [List.isEmpty_iff] using hne
  refine ⟨?_, ?_, ?_, ?_⟩
  · simp only [transcribe_meeting, hdiar, hempty, Bool.false_eq_true, if_false]
    obtain ⟨h1, h2⟩ := meetingLoop_segments_eq tc 0 raws
    rw [h1, h2, meetingLoop_warnings_eq]
  · exact List.getLast?_concat _
  · intro seg hseg htc
    have hbody : (if seg.samples.isEmpty then ""
        else match tc seg.samples with
          | .ok t => t
          | .error _ => "") = "" := by
      by_cases hsempty : seg.samples.isEmpty = true
      · simp [hsempty]
      · match htc' : tc seg.samples with
        | .ok t =>
            rw [htc'] at htc
            simp [Except.isOk, Except.toBool] at htc
        | .error e => simp [hsempty, htc']
    constructor
    · simp only [regionSegment, hbody, empty_trim_isEmpty, if_true]
    · simp only [regionLine, hbody, empty_trim_isEmpty, if_true]
  · intro j seg hj hsne htc
    simpa using warnIndicesFrom_mem tc raws 0 j seg hj hsne htc

/-- Witness for C4 on a run whose single region fails to transcribe: the
run completes with no segments, empty flat text and a warning for
region 0. -/
theorem C4_witness :
    diarFixB (resampleLinear (downmixChannels [] 1) 16000 16000) = .ok [rawFixB]
    ∧ [rawFixB] ≠ []
    ∧ transcribe_meeting diarFixB tcFail [] 1 16000 =
        .ok { stages := ["loading", "diarizing", "transcribing",
                         "transcribing", "done"],
              segments := [], flatText := "", warnings := [0] } :=
  ⟨rfl, by simp,
   ((C4_transcription_failure_nonfatal diarFixB tcFail [] 1 16000 [rawFixB]
      rfl (by simp)).1).trans (by with_unfolding_all rfl)⟩

/-- Claim C7: for every run whose segmentation produces zero regions, the
pipeline emits the stages loading, diarizing, done in that order, never
emits a transcribing stage, and returns success with an empty segment
list and the entry's transcription set to the empty string rather than an
error. -/
theorem C7_empty_segmentation_done
    (diar : List ℚ → Except String (List RawDiarizedSegment))
    (tc : List ℚ → Except String String)
    (rawSamples : List ℚ) (channels srcRate : Nat)
    (hdiar : diar (resampleLinear (downmixChannels rawSamples channels)
        srcRate 16000) = .ok []) :
    transcribe_meeting diar tc rawSamples channels srcRate =
      .ok { stages := ["loading", "diarizing", "done"],
            segments := [], flatText := "", warnings := [] }
    ∧ "transcribing" ∉ (["loading", "diarizing", "done"] : List String) := by
  constructor
  · simp [transcribe_meeting, hdiar]
  · simp

/-- Witness for C7 on a concrete zero-region run. -/
theorem C7_witness :
    diarFixEmpty (resampleLinear (downmixChannels [] 1) 16000 16000) = .ok []
    ∧ transcribe_meeting diarFixEmpty tcOk [] 1 16000 =
        .ok { stages := ["loading", "diarizing", "done"],
              segments := [], flatText := "", warnings := [] } :=
  ⟨rfl, (C7_empty_segmentation_done diarFixEmpty tcOk [] 1 16000 rfl).1⟩

-- ### Claim about downmixing

/-- Claim C8: for every interleaved input with channel count greater than
1, downmixing consumes the input frame by frame and each output sample is
the arithmetic mean of that frame's channel samples; consequently an
N-channel all-zero (silence) input downmixes to an all-zero output. -/
theorem C8_downmix_frame_mean (raw : List ℚ) (channels : Nat)
    (hc : 1 < channels) (hdvd : channels ∣ raw.length) :
    (∀ (i : Nat) (frame : List ℚ), (chunksOf channels raw)[i]? = some frame →
        frame.length = channels
        ∧ (downmixChannels raw channels)[i]? =
            some (frame.sum / (frame.length : ℚ)))
    ∧ ((∀ x ∈ raw, x = 0) → ∀ y ∈ downmixChannels raw channels, y = 0) := by
  have hpos : 0 < channels := by omega
  constructor
  · intro i frame hframe
    have hmem : frame ∈ chunksOf channels raw := List.getElem?_mem hframe
    have hfull : frame.length = channels :=
      chunksOf_full channels hpos raw hdvd frame hmem
    refine ⟨hfull, ?_⟩
    simp only [downmixChannels, hc, if_true]
    rw [List.getElem?_map, hframe]
    simp [hfull]
  · intro hzero y hy
    simp only [downmixChannels, hc, if_true] at hy
    rcases List.mem_map.mp hy with ⟨frame, hfmem, hfy⟩
    have hfz : ∀ x ∈ frame, x = 0 := by
      intro x hx
      apply hzero
      have hflat : x ∈ (chunksOf channels raw).flatten :=
        List.mem_flatten.mpr ⟨frame, hfmem, hx⟩
      rwa [chunksOf_flatten] at hflat
    have hsum : frame.sum = 0 := List.sum_eq_zero hfz
    rw [← hfy, hsum]
    simp

/-- Witness for C8 on 2-channel silence of two frames. -/
theorem C8_witness :
    (1 < 2) ∧ (2 ∣ ([0, 0, 0, 0] : List ℚ).length)
    ∧ (([0, 0] : List ℚ).length = 2
       ∧ (downmixChannels [0, 0, 0, 0] 2)[0]? =
           some (([0, 0] : List ℚ).sum / ((([0, 0] : List ℚ).length : Nat) : ℚ))) :=
  ⟨by omega, by decide,
   (C8_downmix_frame_mean [0, 0, 0, 0] 2 (by omega) (by decide)).1 0 [0, 0]
     (by simp [chunksOf])⟩

-- ### Claim about transcribe_chunked

theorem chunkLoop_all_ok (tr : List ℚ → Except String String)
    (f : List ℚ → String) :
    ∀ (cs : List (List ℚ)) (i : Nat), (∀ c ∈ cs, tr c = .ok (f c)) →
      chunkLoop tr i cs =
        .ok ((cs.map (fun c => trimString (f c))).filter (fun t => !t.isEmpty)) := by
  intro cs
  induction cs with
  | nil =>
      intro i _
      simp [chunkLoop]
  | cons c rest ih =>
      intro i hall
      have hc := hall c (by simp)
      have hrest := ih (i + 1) (fun d hd => hall d (List.mem_cons_of_mem c hd))
      simp only [chunkLoop, hc, hrest, List.map_cons, List.filter_cons]
      by_cases htrim : (trimString (f c)).isEmpty = true
      · simp [htrim]
      · simp [htrim]

theorem chunkLoop_ok_requires_all (tr : List ℚ → Except String String) :
    ∀ (cs : List (List ℚ)) (i : Nat) (out : List String),
      chunkLoop tr i cs = .ok out → ∀ c ∈ cs, (tr c).isOk = true := by
  intro cs
  induction cs with
  | nil =>
      intro i out _ c hc
      simp at hc
  | cons first rest ih =>
      intro i out hout c hc
      simp only [chunkLoop] at hout
      match htr : tr first with
      | .error e =>
          simp only [htr] at hout
          exact Except.noConfusion hout
      | .ok t =>
          simp only [htr] at hout
          simp only [List.mem_cons] at hc
          rcases hc with hc | hc
          · subst hc
            rw [htr]
            rfl
          · match hrec : chunkLoop tr (i + 1) rest with
            | .error e =>
                simp only [hrec] at hout
                exact Except.noConfusion hout
            | .ok parts =>
                exact ih (i + 1) parts hrec c hc

/-- Claim C5: for every input to `transcribe_chunked`, inputs of at most
`CHUNK_SIZE` (16000 * 30) samples make exactly one transcriber call on
the whole input; longer inputs are split into consecutive non-overlapping
`CHUNK_SIZE` chunks (final chunk may be shorter, no chunk empty), each
chunk is transcribed independently in order, empty-trimmed chunk results
are dropped, and the surviving trimmed texts are joined with a single
space in chunk order; an input of exactly `2 * CHUNK_SIZE` samples
produces exactly 2 chunks, and a successful call requires every chunk's
transcription to have succeeded (a failure on any chunk aborts the whole
call). -/
theorem C5_transcribe_chunked_behavior (tr : List ℚ → Except String String)
    (samples : List ℚ) :
    (samples.length ≤ CHUNK_SIZE →
        transcribe_chunked tr samples =
          (match tr samples with
            | .error e => .error ("Transcription failed: " ++ e)
            | .ok text => .ok text))
    ∧ (CHUNK_SIZE < samples.length →
        ((chunksOf CHUNK_SIZE samples).flatten = samples
         ∧ (∀ c ∈ chunksOf CHUNK_SIZE samples, c.length ≤ CHUNK_SIZE ∧ c ≠ [])
         ∧ (∀ (i : Nat) (c : List ℚ),
              i + 1 < (chunksOf CHUNK_SIZE samples).length →
              (chunksOf CHUNK_SIZE samples)[i]? = some c →
              c.length = CHUNK_SIZE)
         ∧ (∀ f : List ℚ → String,
              (∀ c ∈ chunksOf CHUNK_SIZE samples, tr c = .ok (f c)) →
              transcribe_chunked tr samples =
                .ok (String.intercalate " "
                  (((chunksOf CHUNK_SIZE samples).map
                      (fun c => trimString (f c))).filter (fun t => !t.isEmpty))))
         ∧ (∀ out, transcribe_chunked tr samples = .ok out →
              ∀ c ∈ chunksOf CHUNK_SIZE samples, (tr c).isOk = true)))
    ∧ (samples.length = 2 * CHUNK_SIZE →
        (chunksOf CHUNK_SIZE samples).length = 2) := by
  have hCS : 0 < CHUNK_SIZE := by norm_num [CHUNK_SIZE]
  refine ⟨?_, ?_, ?_⟩
  · intro h
    simp only [transcribe_chunked, if_pos h]
  · intro h
    refine ⟨chunksOf_flatten CHUNK_SIZE samples,
            fun c hc => chunksOf_chunk_bound CHUNK_SIZE hCS samples c hc,
            chunksOf_full_of_not_last CHUNK_SIZE hCS samples, ?_, ?_⟩
    · intro f hall
      have hneg : ¬ samples.length ≤ CHUNK_SIZE := by omega
      simp only [transcribe_chunked, if_neg hneg,
        chunkLoop_all_ok tr f (chunksOf CHUNK_SIZE samples) 0 hall]
    · intro out hout c hc
      have hneg : ¬ samples.length ≤ CHUNK_SIZE := by omega
      simp only [transcribe_chunked, if_neg hneg] at hout
      match hcl : chunkLoop tr 0 (chunksOf CHUNK_SIZE samples) with
      | .error e =>
          simp only [hcl] at hout
          exact Except.noConfusion hout
      | .ok parts =>
          exact chunkLoop_ok_requires_all tr (chunksOf CHUNK_SIZE samples)
            0 parts hcl c hc
  · intro h
    exact chunksOf_len_two CHUNK_SIZE hCS samples h

/-- Witness for C5: a short input transcribed in one call, and a
`2 * CHUNK_SIZE` input split into exactly two chunks. -/
theorem C5_witness :
    ([1] : List ℚ).length ≤ CHUNK_SIZE
    ∧ transcribe_chunked tcOk [1] = .ok "hi"
    ∧ (List.replicate (2 * CHUNK_SIZE) (0 : ℚ)).length = 2 * CHUNK_SIZE
    ∧ (chunksOf CHUNK_SIZE (List.replicate (2 * CHUNK_SIZE) (0 : ℚ))).length = 2 :=
  ⟨by decide, (C5_transcribe_chunked_behavior tcOk [1]).1 (by decide),
   by simp,
   (C5_transcribe_chunked_behavior tcOk
      (List.replicate (2 * CHUNK_SIZE) (0 : ℚ))).2.2 (by simp)⟩

-- ### Claim about resampling

/-- The resampling transform as worded by the spec (section 4.1): with
`ratio = src_rate / target_rate`, output length `floor (input_len /
ratio)`, and for output index `i`, `src_pos = i * ratio`,
`idx = floor src_pos`, `frac = src_pos - idx`, output sample
`a + (b - a) * frac` with `a = input[idx]` and `b = input[idx+1]` if
present else `a`.  Stated from the spec's words, to be compared with
`resampleLinear`, which is embedded from the source. -/
def specResample (input : List ℚ) (srcRate targetRate : Nat) : List ℚ :=
  let ratio : ℚ := (srcRate : ℚ) / (targetRate : ℚ)
  (List.range (((input.length : ℚ) / ratio).floor.toNat)).map (fun (i : Nat) =>
    let srcPos : ℚ := (i : ℚ) * ratio
    let idx : Nat := srcPos.floor.toNat
    let frac : ℚ := srcPos - (idx : ℚ)
    let a : ℚ := (input[idx]?).getD 0
    let b : ℚ := (input[idx + 1]?).getD a
    a + (b - a) * frac)

theorem ratTrunc_eq_floor (q : ℚ) (hq : 0 ≤ q) : ratTrunc q = q.floor := by
  simp [ratTrunc, hq]

theorem rat_floor_le_self (q : ℚ) : ((q.floor : ℤ) : ℚ) ≤ q :=
  Rat.le_floor.mp (le_refl _)

theorem rat_floor_nonneg (q : ℚ) (hq : 0 ≤ q) : 0 ≤ q.floor :=
  Rat.le_floor.mpr (by exact_mod_cast hq)

/-- For in-range output indices the interpolation base index is a real
index into the input. -/
theorem resample_idx_lt (input : List ℚ) (srcRate targetRate : Nat)
    (hsrc : 0 < srcRate) (htgt : 0 < targetRate) (i : Nat)
    (hi : i < (((input.length : ℚ) / ((srcRate : ℚ) / (targetRate : ℚ))).floor.toNat)) :
    ((i : ℚ) * ((srcRate : ℚ) / (targetRate : ℚ))).floor.toNat < input.length := by
  set ratio : ℚ := (srcRate : ℚ) / (targetRate : ℚ) with hratio
  have hrpos : 0 < ratio := by
    apply div_pos
    · exact_mod_cast hsrc
    · exact_mod_cast htgt
  have h1 : (i : ℤ) + 1 ≤ ((input.length : ℚ) / ratio).floor := by omega
  have h2 : ((i : ℚ) + 1) ≤ (input.length : ℚ) / ratio := by
    have h2a := Rat.le_floor.mp h1
    push_cast at h2a
    linarith
  have h3 : ((i : ℚ) + 1) * ratio ≤ (input.length : ℚ) := by
    have h3a := mul_le_mul_of_nonneg_right h2 (le_of_lt hrpos)
    rwa [div_mul_cancel₀ _ (ne_of_gt hrpos)] at h3a
  have h4 : (i : ℚ) * ratio < (input.length : ℚ) := by nlinarith
  have h5 : ((((i : ℚ) * ratio).floor : ℤ) : ℚ) < (input.length : ℚ) :=
    lt_of_le_of_lt (rat_floor_le_self _) h4
  have h6 : ((i : ℚ) * ratio).floor < (input.length : ℤ) := by exact_mod_cast h5
  have h7 : 0 ≤ ((i : ℚ) * ratio).floor :=
    rat_floor_nonneg _ (by positivity)
  omega

/-- Claim C6: for every mono input whose sample rate differs from the
16000 Hz target, normalization resamples exactly as the spec's linear
interpolation formula describes (ratio `src/16000`, output length
`floor (len / ratio)`, interpolated value `a + (b - a) * frac` with the
tail clamp), with the base index always inside the input; and when the
input sample rate already equals the target rate the samples pass through
unchanged. -/
theorem C6_resample_linear_interpolation (input : List ℚ) (srcRate : Nat) :
    (srcRate = 16000 → resampleLinear input srcRate 16000 = input)
    ∧ (srcRate ≠ 16000 →
        resampleLinear input srcRate 16000 = specResample input srcRate 16000
        ∧ (0 < srcRate →
            ∀ i : Nat, i < (resampleLinear input srcRate 16000).length →
              ((i : ℚ) * ((srcRate : ℚ) / ((16000 : Nat) : ℚ))).floor.toNat
                < input.length)) := by
  constructor
  · intro h
    simp [resampleLinear, h]
  · intro hne
    have hmain : resampleLinear input srcRate 16000
        = specResample input srcRate 16000 := by
      simp only [resampleLinear, specResample, if_pos hne]
      have hlen : (ratTrunc ((input.length : ℚ)
            / ((srcRate : ℚ) / (((16000 : Nat) : ℚ))))).toNat
          = ((input.length : ℚ)
            / ((srcRate : ℚ) / (((16000 : Nat) : ℚ)))).floor.toNat := by
        rw [ratTrunc_eq_floor _ (by positivity)]
      rw [hlen]
      congr 1
      funext i
      rw [ratTrunc_eq_floor ((i : ℚ) * ((srcRate : ℚ) / (((16000 : Nat) : ℚ))))
        (by positivity)]
    refine ⟨hmain, ?_⟩
    intro hpos i hi
    apply resample_idx_lt input srcRate 16000 hpos (by norm_num) i
    simp only [resampleLinear, if_pos hne, List.length_map,
      List.length_range] at hi
    rwa [ratTrunc_eq_floor _ (by positivity)] at hi

/-- Witness for C6: identity at matching rates, and the interpolation
refinement plus index bound for a 48 kHz to 16 kHz downsample. -/
theorem C6_witness :
    (48000 ≠ 16000)
    ∧ (0 < 48000)
    ∧ resampleLinear [1, 2, 3] 16000 16000 = [1, 2, 3]
    ∧ resampleLinear [1, 2, 3] 48000 16000 = specResample [1, 2, 3] 48000 16000
    ∧ ((0 : ℚ) * (((48000 : Nat) : ℚ) / ((16000 : Nat) : ℚ))).floor.toNat
        < ([1, 2, 3] : List ℚ).length :=
  ⟨by decide, by decide,
   (C6_resample_linear_interpolation [1, 2, 3] 16000).1 rfl,
   ((C6_resample_linear_interpolation [1, 2, 3] 48000).2 (by decide)).1,
   ((C6_resample_linear_interpolation [1, 2, 3] 48000).2 (by decide)).2
     (by decide) 0 (by with_unfolding_all decide)⟩

end HandyXmutter
